import Mathlib

/-!
# Verification of the EPUB/PDF normalizer's deduplication core

Shallow embedding of `src/normalize_epub.py` (class `EPUBNormalizer`).
Pure string-processing functions are translated directly; the mutating
counters (`self.removed_blanks`, `self.removed_duplicates`) become explicit
returned counts; raised exceptions become `Except.error`.

Whitespace is modelled over the ASCII whitespace class that Python's `\s`,
`str.strip()` and `str.lower()` agree on for the ASCII range.
-/

/-- The ASCII whitespace class of Python's regular-expression `\s`
(space, tab, newline, carriage return, vertical tab, form feed). -/
def isWs (c : Char) : Bool :=
  c = ' ' || c = '\t' || c = '\n' || c = '\r' || c.toNat = 11 || c.toNat = 12

/-- Python `str.lower()` restricted to ASCII letters. -/
def lowerChars (l : List Char) : List Char :=
  l.map Char.toLower

/-- Drop leading whitespace (the left half of Python `str.strip()`). -/
def stripLead (l : List Char) : List Char :=
  l.dropWhile (fun c => isWs c)

/-- Drop trailing whitespace (the right half of Python `str.strip()`). -/
def stripTrail (l : List Char) : List Char :=
  (l.reverse.dropWhile (fun c => isWs c)).reverse

/-- Python `str.strip()`: drop leading and trailing whitespace. -/
def stripChars (l : List Char) : List Char :=
  stripTrail (stripLead l)

/-- Replace every maximal run of whitespace by a single space:
Python `re.sub(r"\s+", " ", ...)`.  The boolean flag records whether the
previous character was part of a whitespace run already replaced. -/
def collapseWsAux : Bool → List Char → List Char
  | _, [] => []
  | prev, c :: rest =>
    if isWs c then
      if prev then collapseWsAux true rest
      else ' ' :: collapseWsAux true rest
    else c :: collapseWsAux false rest

/-- `re.sub(r"\s+", " ", text.lower().strip())` — the normalisation step
inside `EPUBNormalizer.compute_text_hash` (line 52). -/
def normalizeText (text : String) : String :=
  ⟨collapseWsAux false (stripChars (lowerChars text.data))⟩

/-- SHA-256 hex digest.  The digest is deterministic and treated as
collision-free by the program (spec: collision probability negligible), so
it is modelled as an injective encoding — the identity on the digested
normalised text. -/
def sha256Hex (s : String) : String := s

/-- `EPUBNormalizer.compute_text_hash` (lines 50–53):
`hashlib.sha256(re.sub(r"\s+", " ", text.lower().strip()).encode()).hexdigest()`. -/
def compute_text_hash (text : String) : String :=
  sha256Hex (normalizeText text)

/-- `re.sub(r"\s+", "", text)`: remove every whitespace character. -/
def removeWs (l : List Char) : List Char :=
  l.filter (fun c => !(isWs c))

/-- `EPUBNormalizer.is_blank_page` (lines 40–48).  The `html` parameter is
declared but never read in the source. -/
def is_blank_page (text : String) (html : String) : Bool :=
  let clean_text := removeWs text.data
  if clean_text.length < 10 then true
  else if (stripChars text.data).length < 10 then true
  else false

/-- One inner step of the longest-common-subsequence dynamic programme:
walks the remaining characters of `b` producing the new row entries.
`prev` holds the previous row from position `j` on, `diag` its entry at
`j - 1`, `left` the entry of the new row at `j - 1`. -/
def lcsRowStep (c : Char) : List Char → List Nat → Nat → Nat → List Nat
  | [], _, _, _ => []
  | bj :: bs, prev, diag, left =>
    let up := prev.headD 0
    let cur := if c = bj then diag + 1 else max up left
    cur :: lcsRowStep c bs (prev.tailD []) up cur

/-- The new DP row for one character of `a`. -/
def lcsRow (c : Char) (b : List Char) (prev : List Nat) : List Nat :=
  0 :: lcsRowStep c b (prev.tailD []) (prev.headD 0) 0

/-- Length of a longest common subsequence of two character lists,
computed by the standard dynamic programme. -/
def lcsLen (a b : List Char) : Nat :=
  (a.foldl (fun row c => lcsRow c b row) (List.replicate (b.length + 1) 0)).getLastD 0

/-- `rapidfuzz.fuzz.ratio`: the normalised indel similarity of the two raw
texts on a 0–100 scale, `100 * (1 - dist / (len1 + len2))` where the indel
distance is `len1 + len2 - 2 * lcs`.  Two empty strings score 100. -/
def fuzzScore (s1 s2 : String) : Rat :=
  let n := s1.data.length + s2.data.length
  if n = 0 then 100
  else mkRat (100 * (2 * lcsLen s1.data s2.data)) n

/-- `EPUBNormalizer.are_similar` (lines 55–60): false if either text is
empty, otherwise whether the fuzzy ratio meets or exceeds the threshold. -/
def are_similar (text1 : String) (text2 : String) (threshold : Rat) : Bool :=
  if text1.isEmpty || text2.isEmpty then false
  else decide (threshold ≤ fuzzScore text1 text2)

/-- One extracted content unit, in the `(title, html, text)` 3-tuple shape
that `EPUBNormalizer.process` always hands to `deduplicate_chapters`
(PDF chapters are converted to this shape at lines 376–377, EPUB chapters
are produced in it at line 153). -/
structure Chapter where
  title : String
  html : String
  text : String
deriving DecidableEq

/-- The loop body of `EPUBNormalizer.deduplicate_chapters` (lines 167–195),
with the mutable state made explicit: `seenH` is `seen_hashes`, `seenT` is
`seen_texts`; returns the kept chapters together with the number of
removed duplicates. -/
def dedupGo (seenH : List String) (seenT : List String) :
    List Chapter → List Chapter × Nat
  | [] => ([], 0)
  | ch :: rest =>
    let h := compute_text_hash ch.text
    if h ∈ seenH then
      let r := dedupGo seenH seenT rest
      (r.1, r.2 + 1)
    else if seenT.any (fun st => are_similar ch.text st 95) then
      let r := dedupGo seenH seenT rest
      (r.1, r.2 + 1)
    else
      let r := dedupGo (h :: seenH) (seenT ++ [ch.text]) rest
      (ch :: r.1, r.2)

/-- `EPUBNormalizer.deduplicate_chapters` (lines 158–198): returns the
unique chapters and the increment of `self.removed_duplicates`. -/
def deduplicate_chapters (chapters : List Chapter) : List Chapter × Nat :=
  if chapters.isEmpty then (chapters, 0)
  else dedupGo [] [] chapters

/-- The blank-skipping loop of the extraction stage
(`extract_epub_chapters` lines 129–153, `pdf_to_html_chapters` lines
68–82): every unit flagged by `is_blank_page` is dropped and counted in
`self.removed_blanks`; the rest are kept in order. -/
def filterBlanksEx : List Chapter → List Chapter × Nat
  | [] => ([], 0)
  | ch :: rest =>
    if is_blank_page ch.text ch.html then
      let r := filterBlanksEx rest
      (r.1, r.2 + 1)
    else
      let r := filterBlanksEx rest
      (ch :: r.1, r.2)

/-- The content pipeline of `EPUBNormalizer.process` (lines 372–384)
restricted to one run over an extracted unit sequence: extraction-time
blank filtering followed by deduplication.  Returns
`(survivors, removed_blanks, removed_duplicates)`. -/
def extract_and_dedup (units : List Chapter) : List Chapter × Nat × Nat :=
  let e := filterBlanksEx units
  let d := deduplicate_chapters e.1
  (d.1, e.2, d.2)

/-- Python `str.lower()` on a string. -/
def toLowerStr (s : String) : String :=
  ⟨lowerChars s.data⟩

/-- The final path component, as `pathlib` takes it: everything after the
last `/` (the whole string when there is no separator). -/
def lastComponent (p : String) : String :=
  ⟨(p.data.reverse.takeWhile (fun c => c ≠ '/')).reverse⟩

/-- `pathlib.Path(p).suffix`: the extension of the final component,
`name[i:]` for the last dot position `i` when `0 < i < len(name) - 1`,
otherwise the empty string. -/
def pathSuffix (p : String) : String :=
  let name := (lastComponent p).data
  match (name.reverse.findIdx? (fun c => c = '.')) with
  | none => ""
  | some j =>
    let i := name.length - 1 - j
    if 0 < i ∧ i < name.length - 1 then ⟨name.drop i⟩ else ""

/-- A file produced by the program in the output directory. -/
inductive FileWrite where
  | epubFile : String → FileWrite
  | reportFile : String → FileWrite
deriving DecidableEq

/-- `EPUBNormalizer.process` (lines 365–404).  Extraction is performed by
external collaborators (PyMuPDF / ebooklib), modelled as oracle functions
from the input path to the extracted units.  The result is the outcome
(`output_path` or the raised `ValueError`) paired with the files written:
the EPUB container and the report are written only after extraction and
deduplication succeed; the unsupported-format branch raises before any
output is produced. -/
def process (inputPath : String) (outputDir : String)
    (extractPdf : String → List Chapter) (extractEpub : String → List Chapter) :
    Except String String × List FileWrite :=
  let input_ext := toLowerStr (pathSuffix inputPath)
  if input_ext = ".pdf" then
    let chapters := (deduplicate_chapters (extractPdf inputPath)).1
    let output_path := outputDir ++ "/cleaned-book.epub"
    let _ := chapters
    (Except.ok output_path,
     [FileWrite.epubFile output_path,
      FileWrite.reportFile (outputDir ++ "/normalization-report.txt")])
  else if input_ext = ".epub" then
    let chapters := (deduplicate_chapters (extractEpub inputPath)).1
    let output_path := outputDir ++ "/cleaned-book.epub"
    let _ := chapters
    (Except.ok output_path,
     [FileWrite.epubFile output_path,
      FileWrite.reportFile (outputDir ++ "/normalization-report.txt")])
  else
    (Except.error ("Unsupported file format: " ++ input_ext), [])

/-- `main` (lines 440–465): runs `process` under a try/except that turns
any raised error into a non-zero process exit (code 1); a successful run
exits 0.  Returns the exit code and the files written. -/
def mainRun (inputFile : String) (outputDir : String)
    (extractPdf : String → List Chapter) (extractEpub : String → List Chapter) :
    Nat × List FileWrite :=
  match process inputFile outputDir extractPdf extractEpub with
  | (Except.ok _, ws) => (0, ws)
  | (Except.error _, ws) => (1, ws)

/-- Split into maximal whitespace-free words after lowercasing support:
accumulator-based splitter over the character list. -/
def splitWAux (acc : List Char) : List Char → List (List Char)
  | [] => if acc.isEmpty then [] else [acc.reverse]
  | c :: rest =>
    if isWs c then
      if acc.isEmpty then splitWAux [] rest
      else acc.reverse :: splitWAux [] rest
    else splitWAux (c :: acc) rest

/-- The sequence of maximal non-whitespace chunks of a text, lowercased:
two texts "differ only in letter case and/or whitespace style" exactly
when they have the same `wordsOf` value. -/
def wordsOf (s : String) : List (List Char) :=
  splitWAux [] (lowerChars s.data)

/-- Join words with single spaces. -/
def joinSp : List (List Char) → List Char
  | [] => []
  | [w] => w
  | w :: ws => w ++ ' ' :: joinSp ws

/-! ## Helper lemmas about the deduplication loop -/

theorem dedupGo_length (rest : List Chapter) : ∀ seenH seenT,
    (dedupGo seenH seenT rest).1.length + (dedupGo seenH seenT rest).2 = rest.length := by
  induction rest with
  | nil => intro seenH seenT; simp [dedupGo]
  | cons ch t ih =>
    intro seenH seenT
    simp only [dedupGo]
    split
    · have := ih seenH seenT
      simp only [List.length_cons]
      omega
    · split
      · have := ih seenH seenT
        simp only [List.length_cons]
        omega
      · have := ih (compute_text_hash ch.text :: seenH) (seenT ++ [ch.text])
        simp only [List.length_cons]
        omega

theorem filterBlanksEx_eq (units : List Chapter) :
    filterBlanksEx units =
      (units.filter (fun ch => !(is_blank_page ch.text ch.html)),
       units.countP (fun ch => is_blank_page ch.text ch.html)) := by
  induction units with
  | nil => simp [filterBlanksEx]
  | cons ch t ih =>
    simp only [filterBlanksEx]
    by_cases hb : is_blank_page ch.text ch.html
    · simp [hb, ih, List.filter_cons, List.countP_cons]
    · simp [hb, ih, List.filter_cons, List.countP_cons]

theorem dedupGo_sublist (rest : List Chapter) : ∀ seenH seenT,
    List.Sublist (dedupGo seenH seenT rest).1 rest := by
  induction rest with
  | nil => intro seenH seenT; simp [dedupGo]
  | cons ch t ih =>
    intro seenH seenT
    simp only [dedupGo]
    split
    · exact List.Sublist.cons ch (ih seenH seenT)
    · split
      · exact List.Sublist.cons ch (ih seenH seenT)
      · exact List.Sublist.cons₂ ch (ih (compute_text_hash ch.text :: seenH) (seenT ++ [ch.text]))

theorem dedupGo_hash_fresh (rest : List Chapter) : ∀ seenH seenT h0, h0 ∈ seenH →
    ∀ ch ∈ (dedupGo seenH seenT rest).1, compute_text_hash ch.text ≠ h0 := by
  induction rest with
  | nil => intro seenH seenT h0 _ ch hch; simp [dedupGo] at hch
  | cons c t ih =>
    intro seenH seenT h0 hh0 ch hch
    simp only [dedupGo] at hch
    split at hch
    · exact ih seenH seenT h0 hh0 ch hch
    · split at hch
      · exact ih seenH seenT h0 hh0 ch hch
      · rcases List.mem_cons.mp hch with rfl | hmem
        · rename_i hnot _
          intro he
          exact hnot (he ▸ hh0)
        · exact ih (compute_text_hash c.text :: seenH) (seenT ++ [c.text]) h0
            (List.mem_cons_of_mem _ hh0) ch hmem

theorem dedupGo_hash_pairwise (rest : List Chapter) : ∀ seenH seenT,
    (dedupGo seenH seenT rest).1.Pairwise
      (fun a b => compute_text_hash a.text ≠ compute_text_hash b.text) := by
  induction rest with
  | nil => intro seenH seenT; simp [dedupGo]
  | cons c t ih =>
    intro seenH seenT
    simp only [dedupGo]
    split
    · exact ih seenH seenT
    · split
      · exact ih seenH seenT
      · refine List.pairwise_cons.mpr ⟨?_, ih _ _⟩
        intro b hb
        have := dedupGo_hash_fresh t (compute_text_hash c.text :: seenH) (seenT ++ [c.text])
          (compute_text_hash c.text) (List.mem_cons_self _ _) b hb
        exact fun he => this (he ▸ rfl)

/-! ## Helper lemmas about blankness -/

theorem removeWs_dropWhile (l : List Char) :
    removeWs (l.dropWhile (fun c => isWs c)) = removeWs l := by
  induction l with
  | nil => rfl
  | cons c t ih =>
    by_cases hc : isWs c
    · rw [List.dropWhile_cons_of_pos (by simpa using hc), ih]
      simp [removeWs, List.filter_cons, hc]
    · rw [List.dropWhile_cons_of_neg (by simpa using hc)]

theorem removeWs_reverse (l : List Char) :
    removeWs l.reverse = (removeWs l).reverse :=
  List.filter_reverse _ _

theorem removeWs_stripChars (l : List Char) :
    removeWs (stripChars l) = removeWs l := by
  unfold stripChars stripTrail stripLead
  rw [removeWs_reverse, removeWs_dropWhile, removeWs_reverse, List.reverse_reverse,
    removeWs_dropWhile]

theorem filterBlanksEx_length (units : List Chapter) :
    (filterBlanksEx units).1.length + (filterBlanksEx units).2 = units.length := by
  induction units with
  | nil => rfl
  | cons ch t ih =>
    simp only [filterBlanksEx]
    split
    · simp only [List.length_cons]; omega
    · simp only [List.length_cons]; omega

theorem deduplicate_chapters_length (chapters : List Chapter) :
    (deduplicate_chapters chapters).1.length + (deduplicate_chapters chapters).2 =
      chapters.length := by
  unfold deduplicate_chapters
  split
  · simp
  · exact dedupGo_length chapters [] []

/-! ## The claims -/

/-- C2: for every run of the pipeline over an extracted sequence of content
units, `blanks_removed + duplicates_removed + len(survivors) == len(input units)`. -/
theorem claim2_counter_consistency (units : List Chapter) :
    (extract_and_dedup units).2.1 + (extract_and_dedup units).2.2 +
      (extract_and_dedup units).1.length = units.length := by
  have h1 := filterBlanksEx_length units
  have h2 := deduplicate_chapters_length (filterBlanksEx units).1
  simp only [extract_and_dedup]
  omega

/-- C3: the survivors returned by `deduplicate_chapters` form a subsequence
of the input — every survivor is an input element and the relative order of
survivors equals their relative order in the input. -/
theorem claim3_order_preservation (chapters : List Chapter) :
    List.Sublist (deduplicate_chapters chapters).1 chapters := by
  unfold deduplicate_chapters
  split
  · exact List.Sublist.refl _
  · exact dedupGo_sublist chapters [] []

/-- C4 (counterexample): units `A1` and `A2` have identical `plain_text`,
yet the survivors of `deduplicate_chapters` contain neither of them — both
are removed as fuzzy duplicates of the earlier near-identical survivor `X`
(ratio exactly 95), so the claimed "exactly one survivor among them" fails. -/
theorem claim4_counterexample :
    (Chapter.mk "A1" "" "aaaaaaaaaaaaaaaaaaaa").text =
        (Chapter.mk "A2" "" "aaaaaaaaaaaaaaaaaaaa").text ∧
    (deduplicate_chapters
        [Chapter.mk "X" "" "aaaaaaaaaaaaaaaaaaab",
         Chapter.mk "A1" "" "aaaaaaaaaaaaaaaaaaaa",
         Chapter.mk "A2" "" "aaaaaaaaaaaaaaaaaaaa"]).1 =
      [Chapter.mk "X" "" "aaaaaaaaaaaaaaaaaaab"] := by
  exact ⟨rfl, by decide⟩

/-- C4 (amended): at most one unit of any identical-`plain_text` pair
survives `deduplicate_chapters` — the surviving chapters have pairwise
distinct texts (identical texts yield identical fingerprints, and a kept
fingerprint is always skipped); both units of such a pair can be removed
when each is similar to an earlier survivor. -/
theorem claim4_amended_unique_texts (chapters : List Chapter) :
    (deduplicate_chapters chapters).1.Pairwise (fun a b => a.text ≠ b.text) := by
  have hp : (deduplicate_chapters chapters).1.Pairwise
      (fun a b => compute_text_hash a.text ≠ compute_text_hash b.text) := by
    unfold deduplicate_chapters
    split
    · rename_i he
      rw [List.isEmpty_iff.mp he]
      simp
    · exact dedupGo_hash_pairwise chapters [] []
  exact hp.imp (fun {a b} hne he => hne (by rw [he]))

/-- C7: `is_blank_page` returns true iff the text with all whitespace
removed has length strictly below 10; the additional `len(text.strip()) < 10`
branch never changes the result. -/
theorem claim7_blank_iff (text html : String) :
    is_blank_page text html = true ↔ (removeWs text.data).length < 10 := by
  unfold is_blank_page
  by_cases h : (removeWs text.data).length < 10
  · simp [h]
  · have hle : (removeWs text.data).length ≤ (stripChars text.data).length := by
      rw [← removeWs_stripChars text.data]
      exact List.length_filter_le _ _
    have h2 : ¬ (stripChars text.data).length < 10 := by omega
    simp [h, h2]

/-- C9: `deduplicate_chapters` unconditionally keeps the first unit of a
non-empty input as the first survivor — the seen-fingerprint set and the
seen-text list are empty at that point and no blank check is performed. -/
theorem claim9_first_unit_kept (ch : Chapter) (rest : List Chapter) :
    ((deduplicate_chapters (ch :: rest)).1).head? = some ch := by
  simp only [deduplicate_chapters]
  rw [if_neg (by simp)]
  simp only [dedupGo]
  rw [if_neg (by simp), if_neg (by simp)]
  rfl

/-- C9 witness: at a concrete non-empty input (whose first unit is even
blank) the first survivor is that first unit. -/
theorem claim9_witness :
    ((deduplicate_chapters [Chapter.mk "P" "" ""]).1).head? =
      some (Chapter.mk "P" "" "") :=
  claim9_first_unit_kept (Chapter.mk "P" "" "") []

/-- C10: the result of `is_blank_page` depends only on its `text` argument;
the `html` parameter is never read. -/
theorem claim10_html_unused (text h1 h2 : String) :
    is_blank_page text h1 = is_blank_page text h2 := rfl

/-- C1 (counterexample): a unit flagged blank by `is_blank_page` is NOT
skipped by `deduplicate_chapters` — the blank unit survives deduplication
and no removal is counted there, because `deduplicate_chapters` performs no
blank check (blanks are filtered earlier, during extraction). -/
theorem claim1_counterexample :
    is_blank_page "short" "<p>short</p>" = true ∧
    deduplicate_chapters [Chapter.mk "Page 1" "<p>short</p>" "short"] =
      ([Chapter.mk "Page 1" "<p>short</p>" "short"], 0) := by
  decide

/-- C1 (amended): blank skipping happens in the extraction stage, before
`deduplicate_chapters`: the extraction loop removes exactly the units
flagged by `is_blank_page`, counting each as a removed blank, so the
deduplication stage of the pipeline only ever receives (and only ever
compares) non-blank units. -/
theorem claim1_amended_blank_precedence (units : List Chapter) :
    (extract_and_dedup units).2.1 =
        units.countP (fun ch => is_blank_page ch.text ch.html) ∧
    (extract_and_dedup units).1 =
      (deduplicate_chapters
        (units.filter (fun ch => !(is_blank_page ch.text ch.html)))).1 := by
  simp [extract_and_dedup, filterBlanksEx_eq]

/-- C6: for non-empty texts, `are_similar` at the default threshold holds
exactly when the computed similarity ratio is at least 95; in particular a
ratio of exactly 95 is a duplicate and a ratio of 94.999 is not. -/
theorem claim6_similarity_threshold (text1 text2 : String)
    (h1 : text1 ≠ "") (h2 : text2 ≠ "") :
    (are_similar text1 text2 95 = true ↔ 95 ≤ fuzzScore text1 text2) ∧
    (fuzzScore text1 text2 = 95 → are_similar text1 text2 95 = true) ∧
    (fuzzScore text1 text2 = 94999 / 1000 → are_similar text1 text2 95 = false) := by
  have e1 : text1.isEmpty = false := by
    rw [Bool.eq_false_iff]
    intro hb
    exact h1 ((String.isEmpty_iff text1).mp hb)
  have e2 : text2.isEmpty = false := by
    rw [Bool.eq_false_iff]
    intro hb
    exact h2 ((String.isEmpty_iff text2).mp hb)
  have hiff : are_similar text1 text2 95 = true ↔ 95 ≤ fuzzScore text1 text2 := by
    simp [are_similar, e1, e2]
  refine ⟨hiff, ?_, ?_⟩
  · intro hr
    exact hiff.mpr (le_of_eq hr.symm)
  · intro hr
    rw [Bool.eq_false_iff]
    intro hb
    have := hiff.mp hb
    rw [hr] at this
    norm_num at this

/-- C6 witness: two concrete non-empty 20-character texts whose ratio is
exactly 95 are classified as similar. -/
theorem claim6_witness :
    are_similar "aaaaaaaaaaaaaaaaaaab" "aaaaaaaaaaaaaaaaaaaa" 95 = true ↔
      95 ≤ fuzzScore "aaaaaaaaaaaaaaaaaaab" "aaaaaaaaaaaaaaaaaaaa" :=
  (claim6_similarity_threshold "aaaaaaaaaaaaaaaaaaab" "aaaaaaaaaaaaaaaaaaaa"
    (by decide) (by decide)).1

/-- C8: for every input path whose extension (lower-cased) is neither
`.pdf` nor `.epub`, `process` raises the unsupported-format error having
produced no output container and no report file, and `main` exits with the
non-zero status 1. -/
theorem claim8_unsupported_format (path dir : String)
    (extractPdf extractEpub : String → List Chapter)
    (hp : toLowerStr (pathSuffix path) ≠ ".pdf")
    (he : toLowerStr (pathSuffix path) ≠ ".epub") :
    process path dir extractPdf extractEpub =
      (Except.error ("Unsupported file format: " ++ toLowerStr (pathSuffix path)), []) ∧
    mainRun path dir extractPdf extractEpub = (1, []) := by
  have hpr : process path dir extractPdf extractEpub =
      (Except.error ("Unsupported file format: " ++ toLowerStr (pathSuffix path)), []) := by
    simp only [process]
    rw [if_neg hp, if_neg he]
  refine ⟨hpr, ?_⟩
  unfold mainRun
  rw [hpr]

/-- C8 witness: a concrete `.txt` input path is rejected with no files
written and exit code 1. -/
theorem claim8_witness :
    process "book.txt" "output" (fun _ => []) (fun _ => []) =
      (Except.error ("Unsupported file format: " ++ toLowerStr (pathSuffix "book.txt")), []) ∧
    mainRun "book.txt" "output" (fun _ => []) (fun _ => []) = (1, []) :=
  claim8_unsupported_format "book.txt" "output" (fun _ => []) (fun _ => [])
    (by decide) (by decide)

/-! ## Helper lemmas for whitespace-style invariance of the fingerprint -/

theorem collapse_word (w : List Char) : ∀ r, (∀ c ∈ w, isWs c = false) →
    collapseWsAux false (w ++ r) = w ++ collapseWsAux false r := by
  induction w with
  | nil => intro r _; rfl
  | cons c t ih =>
    intro r hall
    have hc : isWs c = false := hall c (List.mem_cons_self _ _)
    have iht := ih r (fun x hx => hall x (List.mem_cons_of_mem _ hx))
    simp [collapseWsAux, hc, iht]

theorem collapse_true_stripLead (l : List Char) :
    collapseWsAux true l = collapseWsAux false (stripLead l) := by
  induction l with
  | nil => rfl
  | cons c t ih =>
    by_cases hc : isWs c
    · have h1 : stripLead (c :: t) = stripLead t := by
        simp [stripLead, List.dropWhile_cons, hc]
      rw [h1, ← ih]
      simp [collapseWsAux, hc]
    · have h1 : stripLead (c :: t) = c :: t := by
        simp [stripLead, List.dropWhile_cons, hc]
      rw [h1]
      simp [collapseWsAux, hc]

theorem splitW_word (w : List Char) : ∀ r acc, (∀ c ∈ w, isWs c = false) →
    splitWAux acc (w ++ r) = splitWAux (w.reverse ++ acc) r := by
  induction w with
  | nil => intro r acc _; simp
  | cons c t ih =>
    intro r acc hall
    have hc : isWs c = false := hall c (List.mem_cons_self _ _)
    have iht := ih r (c :: acc) (fun x hx => hall x (List.mem_cons_of_mem _ hx))
    simp [splitWAux, hc, iht]

theorem splitW_allWs (r : List Char) : ∀ acc, (∀ c ∈ r, isWs c = true) →
    splitWAux acc r = if acc.isEmpty then [] else [acc.reverse] := by
  induction r with
  | nil => intro acc _; rfl
  | cons c t ih =>
    intro acc hall
    have hc : isWs c = true := hall c (List.mem_cons_self _ _)
    have ht : ∀ x ∈ t, isWs x = true := fun x hx => hall x (List.mem_cons_of_mem _ hx)
    have h0 : splitWAux [] t = [] := by
      rw [ih [] ht]
      rfl
    by_cases ha : acc.isEmpty
    · simp [splitWAux, hc, ha, h0]
    · simp [splitWAux, hc, ha, h0]

theorem splitW_ne_nil_acc (r : List Char) : ∀ acc, acc ≠ [] → splitWAux acc r ≠ [] := by
  induction r with
  | nil =>
    intro acc ha
    simp [splitWAux, ha]
  | cons c t ih =>
    intro acc ha
    by_cases hc : isWs c
    · have ha2 : acc.isEmpty = false := by simpa using ha
      simp [splitWAux, hc, ha2]
    · have := ih (c :: acc) (by simp)
      simp [splitWAux, hc, this]

theorem splitW_ne_nil (r : List Char) : (∃ c ∈ r, isWs c = false) →
    splitWAux [] r ≠ [] := by
  induction r with
  | nil => rintro ⟨c, hc, _⟩; cases hc
  | cons c t ih =>
    rintro ⟨x, hx, hxw⟩
    by_cases hc : isWs c
    · have hxt : x ∈ t := by
        rcases List.mem_cons.mp hx with rfl | h
        · exact absurd hc (by simp [hxw])
        · exact h
      have := ih ⟨x, hxt, hxw⟩
      simp [splitWAux, hc, this]
    · have := splitW_ne_nil_acc t [c] (by simp)
      simp [splitWAux, hc, this]

theorem stripTrail_eq_nil_iff (r : List Char) :
    stripTrail r = [] ↔ ∀ c ∈ r, isWs c = true := by
  unfold stripTrail
  rw [List.reverse_eq_nil_iff, List.dropWhile_eq_nil_iff]
  constructor
  · intro h c hc
    simpa using h c (List.mem_reverse.mpr hc)
  · intro h c hc
    simpa using h c (List.mem_reverse.mp hc)

theorem dropWhile_all_false (l : List Char) (h : ∀ c ∈ l, isWs c = false) :
    l.dropWhile (fun c => isWs c) = l := by
  cases l with
  | nil => rfl
  | cons c t =>
    rw [List.dropWhile_cons_of_neg (by simp [h c (List.mem_cons_self _ _)])]

theorem stripTrail_append_allWs (w r : List Char) (hw : ∀ c ∈ w, isWs c = false)
    (hr : stripTrail r = []) : stripTrail (w ++ r) = w := by
  have hr2 : r.reverse.dropWhile (fun c => isWs c) = [] := by
    unfold stripTrail at hr
    simpa using hr
  unfold stripTrail
  rw [List.reverse_append, List.dropWhile_append, hr2]
  simp only [List.isEmpty_nil, if_true]
  rw [dropWhile_all_false w.reverse (fun c hc => hw c (List.mem_reverse.mp hc)),
    List.reverse_reverse]

theorem stripTrail_append (w r : List Char) (hr : stripTrail r ≠ []) :
    stripTrail (w ++ r) = w ++ stripTrail r := by
  have hr2 : (r.reverse.dropWhile (fun c => isWs c)).isEmpty = false := by
    unfold stripTrail at hr
    simp only [List.isEmpty_eq_false]
    intro h
    exact hr (by rw [h]; rfl)
  unfold stripTrail
  rw [List.reverse_append, List.dropWhile_append]
  simp [hr2]

theorem stripLead_append_allWs (w x : List Char) (hw : ∀ c ∈ w, isWs c = true) :
    stripLead (w ++ x) = stripLead x := by
  have h1 : w.dropWhile (fun c => isWs c) = [] :=
    List.dropWhile_eq_nil_iff.mpr (by simpa using hw)
  unfold stripLead
  rw [List.dropWhile_append, h1]
  simp

theorem dropWhile_head_false {p : Char → Bool} : ∀ (l : List Char) d r',
    l.dropWhile p = d :: r' → p d = false := by
  intro l
  induction l with
  | nil => intro d r' h; cases h
  | cons a t ih =>
    intro d r' h
    by_cases hpa : p a
    · rw [List.dropWhile_cons_of_pos hpa] at h
      exact ih d r' h
    · rw [List.dropWhile_cons_of_neg hpa] at h
      injection h with h1 h2
      subst h1
      simpa using hpa

theorem joinSp_cons_ne (w : List Char) (xs : List (List Char)) (h : xs ≠ []) :
    joinSp (w :: xs) = w ++ ' ' :: joinSp xs := by
  cases xs with
  | nil => cases h rfl
  | cons y ys => rfl

theorem stripLead_stripTrail_of_head (d : Char) (v : List Char) (hd : isWs d = false) :
    stripLead (stripTrail (d :: v)) = stripTrail (d :: v) := by
  by_cases hv : stripTrail v = []
  · rw [show (d :: v) = [d] ++ v from rfl, stripTrail_append_allWs [d] v (by simp [hd]) hv]
    simp [stripLead, List.dropWhile_cons, hd]
  · rw [show (d :: v) = [d] ++ v from rfl, stripTrail_append [d] v hv]
    simp [stripLead, List.dropWhile_cons, hd]

theorem exists_nonWs_stripLead (l : List Char) (hex : ∃ c ∈ l, isWs c = false) :
    ∃ c ∈ stripLead l, isWs c = false := by
  obtain ⟨c0, hc0, hc0w⟩ := hex
  by_contra hno
  push_neg at hno
  have hnil : removeWs (stripLead l) = [] := by
    refine List.filter_eq_nil_iff.mpr ?_
    intro a ha
    have := hno a ha
    simp only [Bool.not_eq_false] at this
    simp [this]
  have hmem : c0 ∈ removeWs l := List.mem_filter.mpr ⟨hc0, by simp [hc0w]⟩
  rw [← removeWs_dropWhile] at hmem
  rw [show stripLead l = l.dropWhile (fun c => isWs c) from rfl] at hnil
  rw [hnil] at hmem
  cases hmem

theorem stripLead_stripTrail (l : List Char) :
    stripLead (stripTrail l) = stripChars l := by
  by_cases hall : ∀ c ∈ l, isWs c = true
  · have h1 : stripTrail l = [] := (stripTrail_eq_nil_iff l).mpr hall
    have h2 : stripLead l = [] := List.dropWhile_eq_nil_iff.mpr (by simpa using hall)
    rw [h1]
    unfold stripChars
    rw [h2]
    rfl
  · push_neg at hall
    have hex : ∃ c ∈ l, isWs c = false := by
      obtain ⟨c0, hc0, hc0w⟩ := hall
      exact ⟨c0, hc0, by simpa using hc0w⟩
    have hu := exists_nonWs_stripLead l hex
    have htu : stripTrail (stripLead l) ≠ [] := by
      intro h
      obtain ⟨c, hc, hcf⟩ := hu
      rw [(stripTrail_eq_nil_iff _).mp h c hc] at hcf
      cases hcf
    have hp : ∀ c ∈ l.takeWhile (fun c => isWs c), isWs c = true :=
      fun c hc => by simpa using List.mem_takeWhile_imp hc
    have hdecomp : l.takeWhile (fun c => isWs c) ++ stripLead l = l :=
      List.takeWhile_append_dropWhile _ l
    have step1 : stripTrail l = l.takeWhile (fun c => isWs c) ++ stripTrail (stripLead l) := by
      conv in stripTrail l => rw [← hdecomp]
      exact stripTrail_append _ _ htu
    rw [step1, stripLead_append_allWs _ _ hp]
    obtain ⟨d, v, hdv⟩ : ∃ d v, stripLead l = d :: v := by
      obtain ⟨c, hc, _⟩ := hu
      cases hsl : stripLead l with
      | nil => rw [hsl] at hc; cases hc
      | cons d v => exact ⟨d, v, rfl⟩
    have hd : isWs d = false := dropWhile_head_false l d v hdv
    rw [hdv, stripLead_stripTrail_of_head d v hd]
    unfold stripChars
    rw [hdv]

theorem stripTrail_ne_nil_of_exists (r : List Char) (hex : ∃ x ∈ r, isWs x = false) :
    stripTrail r ≠ [] := by
  intro h
  obtain ⟨x, hx, hxf⟩ := hex
  rw [(stripTrail_eq_nil_iff r).mp h x hx] at hxf
  cases hxf

theorem exists_of_stripTrail_ne_nil (r : List Char) (h : stripTrail r ≠ []) :
    ∃ x ∈ r, isWs x = false := by
  by_contra hno
  push_neg at hno
  refine h ((stripTrail_eq_nil_iff r).mpr ?_)
  intro c hc
  have := hno c hc
  simpa using this

theorem collapse_strip_splitW_aux : ∀ n (l : List Char), l.length ≤ n →
    collapseWsAux false (stripChars l) = joinSp (splitWAux [] l) := by
  intro n
  induction n with
  | zero =>
    intro l hl
    have hnil : l = [] := List.eq_nil_of_length_eq_zero (Nat.le_zero.mp hl)
    subst hnil
    rfl
  | succ n ih =>
    intro l hl
    cases l with
    | nil => rfl
    | cons c t =>
      have hlt : t.length ≤ n := by
        simp only [List.length_cons] at hl
        omega
      by_cases hc : isWs c
      · have h1 : stripChars (c :: t) = stripChars t := by
          unfold stripChars stripLead
          rw [List.dropWhile_cons_of_pos (by simpa using hc)]
        have h2 : splitWAux [] (c :: t) = splitWAux [] t := by
          simp [splitWAux, hc]
        rw [h1, h2]
        exact ih t hlt
      · have hcf : isWs c = false := by simpa using hc
        have hwr : (c :: t).takeWhile (fun x => !isWs x) ++
            (c :: t).dropWhile (fun x => !isWs x) = c :: t :=
          List.takeWhile_append_dropWhile _ _
        have hw_all : ∀ x ∈ (c :: t).takeWhile (fun x => !isWs x), isWs x = false := by
          intro x hx
          have := List.mem_takeWhile_imp hx
          simpa using this
        have hw_ne : (c :: t).takeWhile (fun x => !isWs x) ≠ [] := by
          have hw_cons : (c :: t).takeWhile (fun x => !isWs x) =
              c :: t.takeWhile (fun x => !isWs x) := by
            simp [List.takeWhile_cons, hcf]
          rw [hw_cons]
          simp
        have hlead : stripChars (c :: t) = stripTrail (c :: t) := by
          unfold stripChars stripLead
          rw [List.dropWhile_cons_of_neg (by simpa using hc)]
        by_cases htr : stripTrail ((c :: t).dropWhile (fun x => !isWs x)) = []
        · -- the tail after the leading word is all whitespace
          have hLHS : stripChars (c :: t) = (c :: t).takeWhile (fun x => !isWs x) := by
            rw [hlead]
            conv in stripTrail (c :: t) => rw [← hwr]
            exact stripTrail_append_allWs _ _ hw_all htr
          have hcw : collapseWsAux false ((c :: t).takeWhile (fun x => !isWs x)) =
              (c :: t).takeWhile (fun x => !isWs x) := by
            have := collapse_word ((c :: t).takeWhile (fun x => !isWs x)) [] hw_all
            simpa [collapseWsAux] using this
          have hallr : ∀ x ∈ (c :: t).dropWhile (fun x => !isWs x), isWs x = true :=
            (stripTrail_eq_nil_iff _).mp htr
          have hRHS : splitWAux [] (c :: t) = [(c :: t).takeWhile (fun x => !isWs x)] := by
            conv in splitWAux [] (c :: t) => rw [← hwr]
            rw [splitW_word _ _ _ hw_all, splitW_allWs _ _ hallr]
            rw [if_neg (by simpa using hw_ne)]
            simp
          rw [hLHS, hcw, hRHS]
          rfl
        · -- the tail contains further content
          obtain ⟨d, r', hdr⟩ : ∃ d r', (c :: t).dropWhile (fun x => !isWs x) = d :: r' := by
            cases hcase : (c :: t).dropWhile (fun x => !isWs x) with
            | nil => rw [hcase] at htr; exact absurd rfl htr
            | cons d r' => exact ⟨d, r', rfl⟩
          have hd : isWs d = true := by
            have := dropWhile_head_false (c :: t) d r' hdr
            simpa using this
          have hex : ∃ x ∈ d :: r', isWs x = false :=
            exists_of_stripTrail_ne_nil _ (hdr ▸ htr)
          have hex_r' : ∃ x ∈ r', isWs x = false := by
            obtain ⟨x, hx, hxf⟩ := hex
            rcases List.mem_cons.mp hx with rfl | hmem
            · rw [hd] at hxf; cases hxf
            · exact ⟨x, hmem, hxf⟩
          have htr' : stripTrail r' ≠ [] := stripTrail_ne_nil_of_exists r' hex_r'
          have hsplit_ne : splitWAux [] r' ≠ [] := splitW_ne_nil r' hex_r'
          have hlen_r' : r'.length ≤ n := by
            have h1 : ((c :: t).dropWhile (fun x => !isWs x)).length ≤ t.length := by
              have hdc : (c :: t).dropWhile (fun x => !isWs x) =
                  t.dropWhile (fun x => !isWs x) := by
                simp [List.dropWhile_cons, hcf]
              rw [hdc]
              exact (List.dropWhile_sublist _).length_le
            rw [hdr] at h1
            simp only [List.length_cons] at h1
            omega
          have hLHS : stripChars (c :: t) =
              (c :: t).takeWhile (fun x => !isWs x) ++ (d :: stripTrail r') := by
            rw [hlead]
            conv in stripTrail (c :: t) => rw [← hwr]
            rw [stripTrail_append _ _ htr, hdr]
            rw [show (d :: r') = [d] ++ r' from rfl, stripTrail_append [d] r' htr']
            rfl
          have hstep : collapseWsAux false (stripChars (c :: t)) =
              (c :: t).takeWhile (fun x => !isWs x) ++
                ' ' :: collapseWsAux true (stripTrail r') := by
            rw [hLHS, collapse_word _ _ hw_all]
            simp [collapseWsAux, hd]
          have hcont : collapseWsAux true (stripTrail r') =
              collapseWsAux false (stripChars r') := by
            rw [collapse_true_stripLead, stripLead_stripTrail]
          have hRHS : splitWAux [] (c :: t) =
              (c :: t).takeWhile (fun x => !isWs x) :: splitWAux [] r' := by
            conv in splitWAux [] (c :: t) => rw [← hwr]
            rw [splitW_word _ _ _ hw_all, hdr]
            simp only [splitWAux, hd, if_true]
            rw [if_neg (by simpa using hw_ne)]
            simp
          rw [hstep, hcont, ih r' hlen_r', hRHS,
            joinSp_cons_ne _ _ hsplit_ne]

/-- The normalisation inside `compute_text_hash` collapses a text to its
maximal non-whitespace chunks joined by single spaces. -/
theorem collapse_strip_splitW (l : List Char) :
    collapseWsAux false (stripChars l) = joinSp (splitWAux [] l) :=
  collapse_strip_splitW_aux l.length l (Nat.le_refl _)

/-- C5: two texts that differ only in letter case and/or whitespace style
(choice and multiplicity of the whitespace characters in each run,
including leading/trailing whitespace) — i.e. texts with the same sequence
of lowercased non-whitespace chunks — receive the same fingerprint from
`compute_text_hash`. -/
theorem claim5_hash_invariance (a b : String) (h : wordsOf a = wordsOf b) :
    compute_text_hash a = compute_text_hash b := by
  unfold compute_text_hash sha256Hex normalizeText
  unfold wordsOf at h
  have ha := collapse_strip_splitW (lowerChars a.data)
  have hb := collapse_strip_splitW (lowerChars b.data)
  congr 1
  rw [ha, hb, h]

/-- C5 witness: two concrete texts differing only in case and whitespace
style hash identically. -/
theorem claim5_witness :
    wordsOf "Hello  World\n" = wordsOf " hello\tWORLD" ∧
    compute_text_hash "Hello  World\n" = compute_text_hash " hello\tWORLD" :=
  ⟨by decide, claim5_hash_invariance "Hello  World\n" " hello\tWORLD" (by decide)⟩
